import Mathlib

/-!
Verification of the RISC-V feature-implication engine of
`crates/std_detect/src/detect/os/riscv.rs` (and its Linux twin in
`detect/os/linux/riscv.rs`): the rule table, the single pass applying every
rule in table order, and the fixed-point loop `imply_features`.
-/

namespace RiscvDetect

/-- Modelled from the spec: the capability identifier space (the `Feature`
enum of `crate::detect`, whose declaration is not among the given files).
The spec fixes it as an enumerated, dense, build-time-constant set of
identifiers; we enumerate exactly the identifiers the two given source files
mention. -/
inductive Feature where
  | rv32i
  | rv32e
  | rv64i
  | a
  | b
  | c
  | d
  | f
  | h
  | m
  | q
  | s
  | zicntr
  | zicsr
  | zihpm
  | zaamo
  | zalrsc
  | zba
  | zbb
  | zbs
  | zbkb
  | zbkc
  | zbkx
  | zk
  | zkn
  | zkr
  | zks
  | zkt
  | zkne
  | zknd
  | zknh
  | zksed
  | zksh
  | zfh
  | zfhmin
  | zfinx
  | zdinx
  | zhinx
  | zhinxmin
  deriving DecidableEq, Fintype

/-- Modelled from the spec: the Bit-Set Store (`cache::Initializer`, whose
declaration is not among the given files) — a fixed-capacity set of boolean
capability flags with `test`, `set` and value equality, here a finite set of
the identifiers whose flag is on. -/
abbrev Initializer := Finset Feature

/-- Modelled from the spec: `test(id) -> bool`, whether capability `id` is
currently marked present; no side effects. -/
def test (value : Initializer) (x : Feature) : Bool := x ∈ value

/-- Modelled from the spec: `set(id)`, marks capability `id` present
(idempotent, never clears a bit). -/
def set (value : Initializer) (x : Feature) : Initializer := insert x value

/-- The consequent block of the `imply!` macro arms: `value.set(Feature::$to
as u32)` executed once per consequent, in order. -/
def setEach (value : Initializer) (to_ : List Feature) : Initializer :=
  to_.foldl set value

/-- First arm of the `imply!` macro (`$($from)|+ => $($to)&+`): if `test` is
true for at least one antecedent, `set` every consequent. -/
def implyAny (from_ to_ : List Feature) (value : Initializer) : Initializer :=
  if from_.any fun x => test value x then setEach value to_ else value

/-- Second arm of the `imply!` macro (`$($from)&+ => $($to)&+`): if `test` is
true for every antecedent, `set` every consequent. -/
def implyAll (from_ to_ : List Feature) (value : Initializer) : Initializer :=
  if from_.all fun x => test value x then setEach value to_ else value

/-- One rule of the table: an ANY-antecedent or ALL-antecedent implication. -/
inductive Rule where
  | any (from_ to_ : List Feature)
  | all (from_ to_ : List Feature)

/-- Apply one rule to the in-progress bit-set. -/
def applyRule (value : Initializer) (r : Rule) : Initializer :=
  match r with
  | .any from_ to_ => implyAny from_ to_ value
  | .all from_ to_ => implyAll from_ to_ value

open Feature in
/-- The rule table of `imply_features`, row for row in source order: each
`group!(g == m1 & ... & mk)` expands to the ANY rule `g => m1 & ... & mk`
followed by the ALL rule `m1 & ... & mk => g`, and each `imply!` to its one
rule. -/
def ruleTable : List Rule :=
  [ .any [zkn] [zbkb, zbkc, zbkx, zkne, zknd, zknh],
    .all [zbkb, zbkc, zbkx, zkne, zknd, zknh] [zkn],
    .any [zks] [zbkb, zbkc, zbkx, zksed, zksh],
    .all [zbkb, zbkc, zbkx, zksed, zksh] [zks],
    .any [zk] [zkn, zkr, zkt],
    .all [zkn, zkr, zkt] [zk],
    .any [a] [zalrsc, zaamo],
    .all [zalrsc, zaamo] [a],
    .any [b] [zba, zbb, zbs],
    .all [zba, zbb, zbs] [b],
    .any [zhinx] [zhinxmin],
    .any [zdinx, zhinxmin] [zfinx],
    .any [zfh] [zfhmin],
    .any [q] [d],
    .any [d, zfhmin] [f],
    .any [zicntr, zihpm, zkr, f, zfinx] [zicsr],
    .any [s, h] [zicsr] ]

/-- One full pass of a rule list, in list order, over the same in-progress
bit-set. -/
def passWith (rules : List Rule) (value : Initializer) : Initializer :=
  rules.foldl applyRule value

open Feature in
/-- The body of the `loop` in `imply_features` of `detect/os/riscv.rs`: every
macro-expanded rule applied in source order to the same `value`. -/
def pass (value : Initializer) : Initializer :=
  let value := implyAny [zkn] [zbkb, zbkc, zbkx, zkne, zknd, zknh] value
  let value := implyAll [zbkb, zbkc, zbkx, zkne, zknd, zknh] [zkn] value
  let value := implyAny [zks] [zbkb, zbkc, zbkx, zksed, zksh] value
  let value := implyAll [zbkb, zbkc, zbkx, zksed, zksh] [zks] value
  let value := implyAny [zk] [zkn, zkr, zkt] value
  let value := implyAll [zkn, zkr, zkt] [zk] value
  let value := implyAny [a] [zalrsc, zaamo] value
  let value := implyAll [zalrsc, zaamo] [a] value
  let value := implyAny [b] [zba, zbb, zbs] value
  let value := implyAll [zba, zbb, zbs] [b] value
  let value := implyAny [zhinx] [zhinxmin] value
  let value := implyAny [zdinx, zhinxmin] [zfinx] value
  let value := implyAny [zfh] [zfhmin] value
  let value := implyAny [q] [d] value
  let value := implyAny [d, zfhmin] [f] value
  let value := implyAny [zicntr, zihpm, zkr, f, zfinx] [zicsr] value
  let value := implyAny [s, h] [zicsr] value
  value

theorem pass_eq_passWith (value : Initializer) : pass value = passWith ruleTable value := by
  simp only [pass, passWith, ruleTable, List.foldl_cons, List.foldl_nil, applyRule]

theorem subset_setEach (value : Initializer) (l : List Feature) : value ⊆ setEach value l := by
  induction l generalizing value with
  | nil => exact Finset.Subset.refl value
  | cons t ts ih =>
      exact Finset.Subset.trans (Finset.subset_insert t value) (ih (set value t))

theorem mem_setEach_of_mem {y : Feature} {l : List Feature} (value : Initializer)
    (hy : y ∈ l) : y ∈ setEach value l := by
  induction l generalizing value with
  | nil => cases hy
  | cons t ts ih =>
      rcases List.mem_cons.mp hy with h1 | h1
      · subst h1
        exact subset_setEach (set value y) ts (Finset.mem_insert_self y value)
      · exact ih (set value t) h1

theorem setEach_subset {value T : Initializer} {l : List Feature} (hv : value ⊆ T)
    (hl : ∀ y ∈ l, y ∈ T) : setEach value l ⊆ T := by
  induction l generalizing value with
  | nil => exact hv
  | cons t ts ih =>
      exact ih (Finset.insert_subset (hl t (List.mem_cons_self t ts)) hv)
        (fun y hy => hl y (List.mem_cons_of_mem t hy))

theorem subset_applyRule (value : Initializer) (r : Rule) : value ⊆ applyRule value r := by
  cases r with
  | any from_ to_ =>
      dsimp only [applyRule, implyAny]
      split
      · exact subset_setEach value to_
      · exact Finset.Subset.refl value
  | all from_ to_ =>
      dsimp only [applyRule, implyAll]
      split
      · exact subset_setEach value to_
      · exact Finset.Subset.refl value

theorem test_mono {value T : Initializer} (hvT : value ⊆ T) (x : Feature)
    (hx : test value x = true) : test T x = true := by
  simp only [test, decide_eq_true_eq] at hx ⊢
  exact hvT hx

theorem applyRule_subset_of_fixed {value T : Initializer} {r : Rule} (hvT : value ⊆ T)
    (hT : applyRule T r = T) : applyRule value r ⊆ T := by
  cases r with
  | any from_ to_ =>
      dsimp only [applyRule, implyAny] at hT ⊢
      by_cases hv : (from_.any fun x => test value x) = true
      · have hTany : (from_.any fun x => test T x) = true := by
          rw [List.any_eq_true] at hv ⊢
          obtain ⟨x, hxl, hxv⟩ := hv
          exact ⟨x, hxl, test_mono hvT x hxv⟩
        rw [if_pos hTany] at hT
        rw [if_pos hv]
        exact setEach_subset hvT (fun y hy => hT ▸ mem_setEach_of_mem T hy)
      · rw [if_neg hv]
        exact hvT
  | all from_ to_ =>
      dsimp only [applyRule, implyAll] at hT ⊢
      by_cases hv : (from_.all fun x => test value x) = true
      · have hTall : (from_.all fun x => test T x) = true := by
          rw [List.all_eq_true] at hv ⊢
          exact fun x hxl => test_mono hvT x (hv x hxl)
        rw [if_pos hTall] at hT
        rw [if_pos hv]
        exact setEach_subset hvT (fun y hy => hT ▸ mem_setEach_of_mem T hy)
      · rw [if_neg hv]
        exact hvT

theorem subset_passWith (rules : List Rule) (value : Initializer) :
    value ⊆ passWith rules value := by
  induction rules generalizing value with
  | nil => exact Finset.Subset.refl value
  | cons r rs ih =>
      exact Finset.Subset.trans (subset_applyRule value r) (ih (applyRule value r))

theorem passWith_subset_of_closed {T : Initializer} (rules : List Rule) {value : Initializer}
    (hvT : value ⊆ T) (hT : ∀ r ∈ rules, applyRule T r = T) : passWith rules value ⊆ T := by
  induction rules generalizing value with
  | nil => exact hvT
  | cons r rs ih =>
      exact ih (applyRule_subset_of_fixed hvT (hT r (List.mem_cons_self r rs)))
        (fun r2 hr2 => hT r2 (List.mem_cons_of_mem r hr2))

theorem applyRule_fixed_of_passWith {T : Initializer} {rules : List Rule}
    (h : passWith rules T = T) : ∀ r ∈ rules, applyRule T r = T := by
  induction rules with
  | nil => intro r hr; cases hr
  | cons r rs ih =>
      have h1 : T ⊆ applyRule T r := subset_applyRule T r
      have h2 : applyRule T r ⊆ passWith rs (applyRule T r) :=
        subset_passWith rs (applyRule T r)
      have hcons : passWith rs (applyRule T r) = T := by
        simpa only [passWith, List.foldl_cons] using h
      rw [hcons] at h2
      have hr : applyRule T r = T := Finset.Subset.antisymm h2 h1
      intro r2 hr2
      rcases List.mem_cons.mp hr2 with h3 | h3
      · subst h3; exact hr
      · refine ih ?_ r2 h3
        rwa [hr] at hcons

theorem measure_lt {rules : List Rule} {value : Initializer} (h : passWith rules value ≠ value) :
    Fintype.card Feature - (passWith rules value).card < Fintype.card Feature - value.card := by
  have h1 := subset_passWith rules value
  have hne : value ≠ passWith rules value := fun e => h e.symm
  have h2 : value.card < (passWith rules value).card :=
    Finset.card_lt_card (Finset.ssubset_iff_subset_ne.mpr ⟨h1, hne⟩)
  have h3 : (passWith rules value).card ≤ Fintype.card Feature := Finset.card_le_univ _
  omega

/-- The `loop` of `imply_features` in `detect/os/riscv.rs`: snapshot, one full
pass in table order, return on convergence (`prev == value`). -/
def imply_features (value : Initializer) : Initializer :=
  if _h : pass value = value then pass value
  else imply_features (pass value)
termination_by Fintype.card Feature - value.card
decreasing_by
  rw [pass_eq_passWith] at _h ⊢
  exact measure_lt _h

/-- The same convergence loop run over an arbitrary rule list: the engine of
`imply_features` with the rule table as a parameter (used to state order
independence over permuted tables). -/
def resolveWith (rules : List Rule) (value : Initializer) : Initializer :=
  if _h : passWith rules value = value then passWith rules value
  else resolveWith rules (passWith rules value)
termination_by Fintype.card Feature - value.card
decreasing_by
  exact measure_lt _h

theorem resolveWith_of_fixed {rules : List Rule} {value : Initializer}
    (h : passWith rules value = value) : resolveWith rules value = value := by
  rw [resolveWith, dif_pos h, h]

theorem resolveWith_pass (rules : List Rule) (value : Initializer) :
    resolveWith rules value = resolveWith rules (passWith rules value) := by
  by_cases h : passWith rules value = value
  · rw [h]
  · rw [resolveWith, dif_neg h]

theorem resolveWith_stab (rules : List Rule) (value : Initializer) (n : Nat)
    (h : passWith rules ((passWith rules)^[n] value) = (passWith rules)^[n] value) :
    resolveWith rules value = (passWith rules)^[n] value := by
  induction n generalizing value with
  | zero =>
      simp only [Function.iterate_zero_apply] at h ⊢
      exact resolveWith_of_fixed h
  | succ n ih =>
      rw [Function.iterate_succ_apply] at h ⊢
      rw [resolveWith_pass rules value]
      exact ih (passWith rules value) h

theorem subset_iterate_passWith (rules : List Rule) (value : Initializer) (n : Nat) :
    value ⊆ (passWith rules)^[n] value := by
  induction n with
  | zero => simp only [Function.iterate_zero_apply]; exact Finset.Subset.refl value
  | succ n ih =>
      rw [Function.iterate_succ_apply']
      exact Finset.Subset.trans ih (subset_passWith rules ((passWith rules)^[n] value))

theorem iterate_card_grow (rules : List Rule) (value : Initializer) (k : Nat)
    (hk : ∀ j, j < k → passWith rules ((passWith rules)^[j] value) ≠ (passWith rules)^[j] value) :
    k ≤ ((passWith rules)^[k] value).card := by
  induction k with
  | zero => exact Nat.zero_le _
  | succ k ih =>
      have h1 : k ≤ ((passWith rules)^[k] value).card :=
        ih (fun j hj => hk j (Nat.lt_succ_of_lt hj))
      have hne := hk k (Nat.lt_succ_self k)
      have hsub := subset_passWith rules ((passWith rules)^[k] value)
      have h2 : ((passWith rules)^[k] value).card
          < (passWith rules ((passWith rules)^[k] value)).card :=
        Finset.card_lt_card (Finset.ssubset_iff_subset_ne.mpr ⟨hsub, fun e => hne e.symm⟩)
      rw [Function.iterate_succ_apply']
      omega

theorem iterate_fix_propagate (rules : List Rule) (w : Initializer)
    (h : passWith rules w = w) (j : Nat) : (passWith rules)^[j] w = w := by
  induction j with
  | zero => simp only [Function.iterate_zero_apply]
  | succ j ih => rw [Function.iterate_succ_apply, h, ih]

theorem exists_fixed_le_card (rules : List Rule) (value : Initializer) :
    ∃ j, j ≤ Fintype.card Feature ∧
      passWith rules ((passWith rules)^[j] value) = (passWith rules)^[j] value := by
  by_contra hc
  push_neg at hc
  have hgrow := iterate_card_grow rules value (Fintype.card Feature + 1)
    (fun j hj => hc j (Nat.lt_succ_iff.mp hj))
  have hle : ((passWith rules)^[Fintype.card Feature + 1] value).card ≤ Fintype.card Feature :=
    Finset.card_le_univ _
  omega

theorem iterate_card_fixed (rules : List Rule) (value : Initializer) :
    passWith rules ((passWith rules)^[Fintype.card Feature] value)
      = (passWith rules)^[Fintype.card Feature] value := by
  obtain ⟨j, hj, hfix⟩ := exists_fixed_le_card rules value
  have key : (passWith rules)^[Fintype.card Feature] value = (passWith rules)^[j] value := by
    have hsplit : Fintype.card Feature = (Fintype.card Feature - j) + j :=
      (Nat.sub_add_cancel hj).symm
    rw [hsplit, Function.iterate_add_apply]
    exact iterate_fix_propagate rules _ hfix (Fintype.card Feature - j)
  rw [key]
  exact hfix

theorem resolveWith_eq_iterate (rules : List Rule) (value : Initializer) :
    resolveWith rules value = (passWith rules)^[Fintype.card Feature] value :=
  resolveWith_stab rules value (Fintype.card Feature) (iterate_card_fixed rules value)

theorem passWith_resolveWith_fixed (rules : List Rule) (value : Initializer) :
    passWith rules (resolveWith rules value) = resolveWith rules value := by
  rw [resolveWith_eq_iterate]
  exact iterate_card_fixed rules value

theorem subset_resolveWith (rules : List Rule) (value : Initializer) :
    value ⊆ resolveWith rules value := by
  rw [resolveWith_eq_iterate]
  exact subset_iterate_passWith rules value (Fintype.card Feature)

theorem resolveWith_min {rules : List Rule} {T value : Initializer} (hvT : value ⊆ T)
    (hT : ∀ r ∈ rules, applyRule T r = T) : resolveWith rules value ⊆ T := by
  rw [resolveWith_eq_iterate]
  have hstep : ∀ n, (passWith rules)^[n] value ⊆ T := by
    intro n
    induction n with
    | zero => simpa only [Function.iterate_zero_apply] using hvT
    | succ n ih =>
        rw [Function.iterate_succ_apply']
        exact passWith_subset_of_closed rules ih hT
  exact hstep (Fintype.card Feature)

theorem passWith_ruleTable_eq_pass : passWith ruleTable = pass :=
  funext fun value => (pass_eq_passWith value).symm

theorem imply_features_eq_resolveWith (value : Initializer) :
    imply_features value = resolveWith ruleTable value := by
  rw [imply_features, resolveWith]
  by_cases h : pass value = value
  · have hw : passWith ruleTable value = value := (pass_eq_passWith value).symm.trans h
    rw [dif_pos h, dif_pos hw, h, hw]
  · have hw : ¬ passWith ruleTable value = value := fun e => h ((pass_eq_passWith value).trans e)
    rw [dif_neg h, dif_neg hw, ← pass_eq_passWith]
    exact imply_features_eq_resolveWith (pass value)
termination_by Fintype.card Feature - value.card
decreasing_by
  rw [pass_eq_passWith] at h ⊢
  exact measure_lt h

theorem pass_imply_features (value : Initializer) :
    pass (imply_features value) = imply_features value := by
  rw [imply_features_eq_resolveWith, pass_eq_passWith]
  exact passWith_resolveWith_fixed ruleTable value

theorem subset_imply_features (value : Initializer) : value ⊆ imply_features value := by
  rw [imply_features_eq_resolveWith]
  exact subset_resolveWith ruleTable value

theorem imply_features_min {T value : Initializer} (hvT : value ⊆ T)
    (hT : pass T = T) : imply_features value ⊆ T := by
  rw [imply_features_eq_resolveWith]
  refine resolveWith_min hvT ?_
  exact applyRule_fixed_of_passWith ((pass_eq_passWith T).symm.trans hT)

theorem imply_features_stab (value : Initializer) (n : Nat)
    (h : pass (pass^[n] value) = pass^[n] value) : imply_features value = pass^[n] value := by
  rw [imply_features_eq_resolveWith]
  rw [resolveWith_stab ruleTable value n (by rw [passWith_ruleTable_eq_pass]; exact h)]
  rw [passWith_ruleTable_eq_pass]

end RiscvDetect

namespace RiscvDetect.Linux

open RiscvDetect Feature in
/-- The body of the `loop` in `imply_features` of `detect/os/linux/riscv.rs`:
the same macro-expanded rules, in the same source order. -/
def pass (value : Initializer) : Initializer :=
  let value := implyAny [zkn] [zbkb, zbkc, zbkx, zkne, zknd, zknh] value
  let value := implyAll [zbkb, zbkc, zbkx, zkne, zknd, zknh] [zkn] value
  let value := implyAny [zks] [zbkb, zbkc, zbkx, zksed, zksh] value
  let value := implyAll [zbkb, zbkc, zbkx, zksed, zksh] [zks] value
  let value := implyAny [zk] [zkn, zkr, zkt] value
  let value := implyAll [zkn, zkr, zkt] [zk] value
  let value := implyAny [a] [zalrsc, zaamo] value
  let value := implyAll [zalrsc, zaamo] [a] value
  let value := implyAny [b] [zba, zbb, zbs] value
  let value := implyAll [zba, zbb, zbs] [b] value
  let value := implyAny [zhinx] [zhinxmin] value
  let value := implyAny [zdinx, zhinxmin] [zfinx] value
  let value := implyAny [zfh] [zfhmin] value
  let value := implyAny [q] [d] value
  let value := implyAny [d, zfhmin] [f] value
  let value := implyAny [zicntr, zihpm, zkr, f, zfinx] [zicsr] value
  let value := implyAny [s, h] [zicsr] value
  value

theorem pass_eq_main (value : Initializer) : Linux.pass value = RiscvDetect.pass value := by
  simp only [Linux.pass, RiscvDetect.pass]

/-- The `loop` of `imply_features` in `detect/os/linux/riscv.rs`. -/
def imply_features (value : Initializer) : Initializer :=
  if _h : Linux.pass value = value then Linux.pass value
  else Linux.imply_features (Linux.pass value)
termination_by Fintype.card Feature - value.card
decreasing_by
  rw [pass_eq_main, pass_eq_passWith] at _h ⊢
  exact measure_lt _h

/-- C9: the OS-independent implication function of `detect/os/riscv.rs` and
the Linux-specific one of `detect/os/linux/riscv.rs` compute the same
function: for every initial bit-set they return equal bit-sets (same rule
table, same fixed-point algorithm). -/
theorem imply_features_linux_equals_os_independent (value : Initializer) :
    Linux.imply_features value = RiscvDetect.imply_features value := by
  rw [Linux.imply_features, RiscvDetect.imply_features]
  by_cases h : Linux.pass value = value
  · have hm : RiscvDetect.pass value = value := (pass_eq_main value).symm.trans h
    rw [dif_pos h, dif_pos hm, h, hm]
  · have hm : ¬ RiscvDetect.pass value = value := fun e => h ((pass_eq_main value).trans e)
    rw [dif_neg h, dif_neg hm, pass_eq_main]
    exact Linux.imply_features_linux_equals_os_independent (RiscvDetect.pass value)
termination_by Fintype.card Feature - value.card
decreasing_by
  rw [pass_eq_main, pass_eq_passWith] at h
  rw [pass_eq_passWith]
  exact measure_lt h

end RiscvDetect.Linux

namespace RiscvDetect

set_option maxRecDepth 10000

/-- C1: for every initial bit-set `S`, `imply_features S` is the least fixed
point of the rule table over `S`: it is closed under every rule (one further
full pass over all rules changes nothing), and no strict subset of
`imply_features S` that still contains `S` is also closed under every rule. -/
theorem imply_features_least_fixed_point (S : Initializer) :
    pass (imply_features S) = imply_features S ∧
      ∀ T : Initializer, S ⊆ T → T ⊂ imply_features S → pass T ≠ T := by
  refine ⟨pass_imply_features S, ?_⟩
  intro T hST hTR hfix
  have hsub : imply_features S ⊆ T := imply_features_min hST hfix
  exact (Finset.ssubset_iff_subset_ne.mp hTR).2 (Finset.Subset.antisymm hTR.subset hsub)

/-- C2: `imply_features` is total (the convergence loop exits) and the
iteration stabilizes within at most `|identifier space|` passes: iterating
the pass that many times already reaches the final, pass-fixed bit-set. -/
theorem imply_features_terminates_within_card (S : Initializer) :
    ∃ n, n ≤ Fintype.card Feature ∧ pass^[n] S = imply_features S ∧
      pass (imply_features S) = imply_features S := by
  have hfix : pass (pass^[Fintype.card Feature] S) = pass^[Fintype.card Feature] S := by
    have hgen := iterate_card_fixed ruleTable S
    rwa [passWith_ruleTable_eq_pass] at hgen
  exact ⟨Fintype.card Feature, le_refl _,
    (imply_features_stab S (Fintype.card Feature) hfix).symm, pass_imply_features S⟩

/-- C3: monotonicity — every capability bit set in the input remains set in
`imply_features`, and no operation during resolution (a single rule, or a
full pass) ever clears a bit. -/
theorem imply_features_monotone (S : Initializer) :
    S ⊆ imply_features S ∧ (∀ (value : Initializer) (r : Rule), value ⊆ applyRule value r) ∧
      ∀ value : Initializer, value ⊆ pass value :=
  ⟨subset_imply_features S, subset_applyRule, fun value => by
    rw [pass_eq_passWith]
    exact subset_passWith ruleTable value⟩

/-- C4: idempotence — resolving an already-resolved bit-set changes
nothing. -/
theorem imply_features_idempotent (S : Initializer) :
    imply_features (imply_features S) = imply_features S := by
  rw [imply_features_eq_resolveWith (imply_features S)]
  apply resolveWith_of_fixed
  rw [passWith_ruleTable_eq_pass]
  exact pass_imply_features S

/-- C5: order independence — running the same fixed-point iteration with any
permutation of the rule table's rows yields the same final bit-set as the
source's table order. -/
theorem imply_features_order_independent (rules : List Rule) (S : Initializer)
    (hperm : rules.Perm ruleTable) : resolveWith rules S = imply_features S := by
  apply Finset.Subset.antisymm
  · refine resolveWith_min (subset_imply_features S) ?_
    intro r hr
    refine applyRule_fixed_of_passWith ?_ r (hperm.subset hr)
    rw [passWith_ruleTable_eq_pass]
    exact pass_imply_features S
  · rw [imply_features_eq_resolveWith]
    refine resolveWith_min (subset_resolveWith rules S) ?_
    intro r hr
    exact applyRule_fixed_of_passWith (passWith_resolveWith_fixed rules S) r
      (hperm.mem_iff.mpr hr)

/-- C5 witness: the reversed rule table resolves `{q}` to the same closure as
the source table order. -/
theorem imply_features_order_independent_witness :
    resolveWith ruleTable.reverse {Feature.q} = imply_features {Feature.q} :=
  imply_features_order_independent ruleTable.reverse {Feature.q}
    (List.reverse_perm ruleTable)

/-- C6 counterexample: the claim says `imply_features {zhinxmin}` does NOT
set `zfinx`; in the code the ANY rule `zdinx | zhinxmin => zfinx` fires on
`zhinxmin` alone, so `zfinx` IS set. -/
theorem imply_features_zhinxmin_sets_zfinx :
    Feature.zfinx ∈ imply_features {Feature.zhinxmin} := by
  rw [imply_features_stab ({Feature.zhinxmin} : Initializer) 2 (by decide)]
  decide

/-- C6 (amended): resolving from `{zhinxmin}` alone DOES set `zfinx` (the
rule `zdinx | zhinxmin => zfinx` is an ANY rule, satisfied by either
antecedent individually), and resolving from `{zdinx}` alone also sets
`zfinx`. -/
theorem imply_features_inx_any_rule :
    Feature.zfinx ∈ imply_features {Feature.zhinxmin} ∧
      Feature.zfinx ∈ imply_features {Feature.zdinx} := by
  constructor
  · rw [imply_features_stab ({Feature.zhinxmin} : Initializer) 2 (by decide)]
    decide
  · rw [imply_features_stab ({Feature.zdinx} : Initializer) 2 (by decide)]
    decide

/-- C7: resolving from `{q}` alone yields `q`, `d` and `f` all set (via the
quad → double → single chain), and `zicsr` is set as well because `f` is one
of its triggers. -/
theorem imply_features_q_chain :
    Feature.q ∈ imply_features {Feature.q} ∧ Feature.d ∈ imply_features {Feature.q} ∧
      Feature.f ∈ imply_features {Feature.q} ∧ Feature.zicsr ∈ imply_features {Feature.q} := by
  rw [imply_features_stab ({Feature.q} : Initializer) 2 (by decide)]
  exact ⟨by decide, by decide, by decide, by decide⟩

open Feature in
/-- C8: group symmetry for every group rule of the table (`zkn`, `zks`, `zk`,
`a`, `b`): resolving from the group identifier alone sets every member, and
resolving from exactly the members sets the group identifier. -/
theorem imply_features_group_symmetry :
    (({zbkb, zbkc, zbkx, zkne, zknd, zknh} : Initializer) ⊆ imply_features {zkn} ∧
        zkn ∈ imply_features ({zbkb, zbkc, zbkx, zkne, zknd, zknh} : Initializer)) ∧
      (({zbkb, zbkc, zbkx, zksed, zksh} : Initializer) ⊆ imply_features {zks} ∧
        zks ∈ imply_features ({zbkb, zbkc, zbkx, zksed, zksh} : Initializer)) ∧
      (({zkn, zkr, zkt} : Initializer) ⊆ imply_features {zk} ∧
        zk ∈ imply_features ({zkn, zkr, zkt} : Initializer)) ∧
      (({zalrsc, zaamo} : Initializer) ⊆ imply_features {a} ∧
        a ∈ imply_features ({zalrsc, zaamo} : Initializer)) ∧
      (({zba, zbb, zbs} : Initializer) ⊆ imply_features {b} ∧
        b ∈ imply_features ({zba, zbb, zbs} : Initializer)) := by
  refine ⟨⟨?_, ?_⟩, ⟨?_, ?_⟩, ⟨?_, ?_⟩, ⟨?_, ?_⟩, ⟨?_, ?_⟩⟩
  · rw [imply_features_stab ({zkn} : Initializer) 3 (by decide)]
    decide
  · rw [imply_features_stab ({zbkb, zbkc, zbkx, zkne, zknd, zknh} : Initializer) 3 (by decide)]
    decide
  · rw [imply_features_stab ({zks} : Initializer) 3 (by decide)]
    decide
  · rw [imply_features_stab ({zbkb, zbkc, zbkx, zksed, zksh} : Initializer) 3 (by decide)]
    decide
  · rw [imply_features_stab ({zk} : Initializer) 3 (by decide)]
    decide
  · rw [imply_features_stab ({zkn, zkr, zkt} : Initializer) 3 (by decide)]
    decide
  · rw [imply_features_stab ({a} : Initializer) 3 (by decide)]
    decide
  · rw [imply_features_stab ({zalrsc, zaamo} : Initializer) 3 (by decide)]
    decide
  · rw [imply_features_stab ({b} : Initializer) 3 (by decide)]
    decide
  · rw [imply_features_stab ({zba, zbb, zbs} : Initializer) 3 (by decide)]
    decide

open Feature in
/-- C10: groups sharing members do not cross-activate — resolving from
`{zkn}` sets all six `zkn` members but leaves `zks` and `zk` (and their
missing members `zksed`, `zksh`, `zkr`, `zkt`) unset, even though `zbkb`,
`zbkc` and `zbkx` are also members of `zks`. -/
theorem imply_features_zkn_group_isolated :
    ({zbkb, zbkc, zbkx, zkne, zknd, zknh} : Initializer) ⊆ imply_features {zkn} ∧
      zks ∉ imply_features ({zkn} : Initializer) ∧
      zk ∉ imply_features ({zkn} : Initializer) ∧
      zksed ∉ imply_features ({zkn} : Initializer) ∧
      zksh ∉ imply_features ({zkn} : Initializer) ∧
      zkr ∉ imply_features ({zkn} : Initializer) ∧
      zkt ∉ imply_features ({zkn} : Initializer) := by
  rw [imply_features_stab ({zkn} : Initializer) 3 (by decide)]
  exact ⟨by decide, by decide, by decide, by decide, by decide, by decide, by decide⟩

end RiscvDetect

